import Mathlib

set_option maxHeartbeats 1000000

namespace Aurorus

/-!
Shallow embedding of the aurorus package helper (src/src/main.rs).

Rust strings are modelled as Lean `String`; the Rust string primitives the
program uses (`trim`, `lines`, `split`, `split_whitespace`, `starts_with`,
`parse::<usize>`, `to_lowercase`) are re-implemented structurally over the
character list `String.data`, so that every definition evaluates by `decide`
or `rfl`.
-/

def chars (s : String) : List Char := s.data

def ofChars (l : List Char) : String := ⟨l⟩

/-- Rust `line.starts_with(char::is_whitespace)`: the first character, if any,
is whitespace. -/
def wsFirst : List Char → Bool
  | [] => false
  | c :: _ => c.isWhitespace

def wsFirstS (s : String) : Bool := wsFirst (chars s)

/-- Splitting a character list at every character satisfying `p`
(Rust `str::split`): separators are dropped, empty fields kept. -/
def splitPred (p : Char → Bool) : List Char → List (List Char)
  | [] => [[]]
  | c :: cs =>
    if p c then [] :: splitPred p cs
    else
      match splitPred p cs with
      | [] => [[c]]
      | g :: gs => (c :: g) :: gs

/-- Rust `str::split(sep)` for a single separator character. -/
def splitChar (sep : Char) (l : List Char) : List (List Char) :=
  splitPred (fun c => c = sep) l

/-- Rust `str::trim`: strip whitespace from both ends. -/
def trimChars (l : List Char) : List Char :=
  ((l.dropWhile Char.isWhitespace).reverse.dropWhile Char.isWhitespace).reverse

def trimS (s : String) : String := ofChars (trimChars (chars s))

/-- Rust `str::split_whitespace`: whitespace-separated words, empties dropped. -/
def wordsC (l : List Char) : List (List Char) :=
  (splitPred Char.isWhitespace l).filter (fun w => w ≠ [])

def wordsS (s : String) : List String := (wordsC (chars s)).map ofChars

/-- Rust `str::lines`, modelled as splitting on a newline character.  (Rust
additionally drops a final empty line after a trailing newline; such an empty
line is ignored by every consumer in this program, so the difference is
inert.) -/
def linesOf (s : String) : List String := (splitChar '\n' (chars s)).map ofChars

/-- Rust `str::starts_with(pat)` - first argument is the pattern. -/
def leadsWith : List Char → List Char → Bool
  | [], _ => true
  | _ :: _, [] => false
  | p :: ps, c :: cs => p = c && leadsWith ps cs

def digitVal (c : Char) : Nat := c.toNat - 48

def digitsToNat (l : List Char) : Nat := l.foldl (fun a c => a * 10 + digitVal c) 0

/-- Rust `str::parse::<usize>` on a character list: all characters must be
ASCII digits and the list nonempty.  (Values above `usize::MAX`, which Rust
rejects, only arise for tokens that every caller in this program filters out
by an upper bound anyway.) -/
def parseNatQ (l : List Char) : Option Nat :=
  if l ≠ [] && l.all Char.isDigit then some (digitsToNat l) else none

/-- Rust `str::parse::<usize>`: optional leading `+`, then digits. -/
def parseUsizeQ (s : String) : Option Nat :=
  match chars s with
  | '+' :: rest => parseNatQ rest
  | l => parseNatQ l

def toLowerS (s : String) : String := ofChars ((chars s).map Char.toLower)

/-! ## Version comparator

Modelled from the spec: the program delegates version comparison to the
external `version_compare` crate (`Version::from` / `<` in `update_packages`),
whose source is not part of this repository; §4.1 of the specification
describes the algorithm: split each string into maximal runs of digits vs.
non-digits, compare digit runs as unsigned integers, non-digit runs
lexicographically, type mismatch or exhaustion makes the absent/non-digit side
lower, and an untokenizable (empty) input makes the result `Incomparable`.
-/

inductive Seg
  | num (digits : List Char)
  | str (cs : List Char)
deriving DecidableEq

/-- Modelled from the spec: split a character list into maximal runs of digits
versus non-digits, in order. -/
def tokSegs : List Char → List Seg
  | [] => []
  | c :: cs =>
    match c.isDigit, tokSegs cs with
    | true, .num d :: rest => .num (c :: d) :: rest
    | true, segs => .num [c] :: segs
    | false, .str d :: rest => .str (c :: d) :: rest
    | false, segs => .str [c] :: segs

inductive VOrd
  | lt
  | eq
  | gt
  | incomparable
deriving DecidableEq

def invOrd : VOrd → VOrd
  | .lt => .gt
  | .gt => .lt
  | .eq => .eq
  | .incomparable => .incomparable

def cmpNat (a b : Nat) : VOrd :=
  if a < b then .lt else if b < a then .gt else .eq

/-- Lexicographic byte comparison of non-digit runs. -/
def cmpChars : List Char → List Char → VOrd
  | [], [] => .eq
  | [], _ :: _ => .lt
  | _ :: _, [] => .gt
  | a :: x, b :: y =>
    if a < b then .lt else if b < a then .gt else cmpChars x y

/-- Modelled from the spec: segment-by-segment comparison; digit runs compare
as unsigned integers (so leading zeros are immaterial), non-digit runs
lexicographically, an exhausted side is lower, and on a type mismatch the
non-digit side is lower. -/
def cmpSegs : List Seg → List Seg → VOrd
  | [], [] => .eq
  | [], _ :: _ => .lt
  | _ :: _, [] => .gt
  | .num a :: x, .num b :: y =>
    if cmpNat (digitsToNat a) (digitsToNat b) = .eq then cmpSegs x y
    else cmpNat (digitsToNat a) (digitsToNat b)
  | .str a :: x, .str b :: y =>
    if cmpChars a b = .eq then cmpSegs x y else cmpChars a b
  | .str _ :: _, .num _ :: _ => .lt
  | .num _ :: _, .str _ :: _ => .gt

/-- Modelled from the spec: `Version::from` yields a comparable value exactly
when the string tokenizes to a nonempty segment list. -/
def versionParseQ (s : String) : Option (List Seg) :=
  if tokSegs (chars s) = [] then none else some (tokSegs (chars s))

/-- Modelled from the spec: `compare(a, b)`; `Incomparable` when either input
cannot be tokenized. -/
def vcompare (a b : String) : VOrd :=
  if tokSegs (chars a) = [] ∨ tokSegs (chars b) = [] then .incomparable
  else cmpSegs (tokSegs (chars a)) (tokSegs (chars b))

/-! ## Data model (`types::AurPackage`, `types::AurResponse`) -/

/-- Model of `types::AurPackage`: `Name` and `Version` are required fields, the rest are
`Option` (serde leaves them `None` when absent from the payload). -/
structure AurPkg where
  name : String
  version : String
  description : Option String
  url : Option String
  numVotes : Option Nat
deriving DecidableEq

/-- Model of `types::AurResponse`. -/
structure AurResponseM where
  version : Nat
  respType : String
  resultcount : Nat
  results : Option (List AurPkg)

/-! ## Dependency extraction (`aur::parse_dependencies`) -/

/-- The per-line body of `aur::parse_dependencies`: a line whose trimmed
content starts with the literal `depends =` (one space before the equals
sign) contributes `trimmed.split('=').nth(1)` - the field between the first
and the second `=` of the trimmed line - trimmed again; every other line
contributes nothing. -/
def depOfLine (line : String) : Option String :=
  if leadsWith (chars "depends =") (trimChars (chars line)) then
    ((splitChar '=' (trimChars (chars line)))[1]?).map (fun dep => ofChars (trimChars dep))
  else none

/-- The line loop of `aur::parse_dependencies`, accumulating matches in line
order. -/
def parseDepsGo : List String → List String
  | [] => []
  | line :: rest =>
    match depOfLine line with
    | some d => d :: parseDepsGo rest
    | none => parseDepsGo rest

/-- Rust `aur::parse_dependencies`. -/
def parse_dependencies (srcinfo : String) : List String :=
  parseDepsGo (linesOf srcinfo)

/-- The dependency extractor as the amended claim words it: in line order and
preserving duplicates, one name per qualifying line (see `depOfLine`), all
other lines ignored. -/
def extractDepsAmended (srcinfo : String) : List String :=
  (linesOf srcinfo).filterMap depOfLine

/-! ## Batch chunking (`update_packages`, lines 514-519) -/

/-- Rust `slice::chunks(n)`: consecutive chunks of at most `n` elements. -/
def chunksOf (n : Nat) (l : List (String × String)) : List (List (String × String)) :=
  match l with
  | [] => []
  | x :: xs => (x :: xs.take (n - 1)) :: chunksOf n (xs.drop (n - 1))
termination_by l.length
decreasing_by
  simp only [List.length_cons, List.length_drop]
  omega

/-- The `packages_chunks` value from `update_packages`: chunk the installed `(name,
version)` pairs by 50 and keep the names. -/
def packagesChunks (packages : List (String × String)) : List (List String) :=
  (chunksOf 50 packages).map (fun chunk => chunk.map (fun q => q.1))

/-! ## Update-diff result processing (`update_packages`, lines 540-562) -/

abbrev Candidate := String × String × String

/-- One record of a chunk response: look the name up among the installed
packages (`packages.iter().find`), parse both versions, and emit
`(name, local, remote)` exactly when the local version is strictly below the
remote one.  Mirrors the inner loop of `update_packages`. -/
def candOf (packages : List (String × String)) (p : AurPkg) : Option Candidate :=
  match packages.find? (fun q => decide (q.1 = p.name)) with
  | none => none
  | some (_, localVer) =>
    match versionParseQ localVer with
    | none => none
    | some a =>
      match versionParseQ p.version with
      | none => none
      | some b =>
        if cmpSegs a b = .lt then some (p.name, localVer, p.version) else none

/-- Candidates contributed by one successfully parsed chunk response. -/
def chunkCandidates (resp : AurResponseM) (packages : List (String × String)) :
    List Candidate :=
  match resp.results with
  | none => []
  | some l => l.filterMap (candOf packages)

/-- The `for result in results { if let Ok(response) = result { ... } }` loop:
failed chunk queries are skipped, successful ones append their candidates. -/
def processResults : List (Except String AurResponseM) → List (String × String) →
    List Candidate
  | [], _ => []
  | .error _ :: rest, packages => processResults rest packages
  | .ok r :: rest, packages => chunkCandidates r packages ++ processResults rest packages

/-- First installed version recorded for a name
(`packages.iter().find(|(name, _)| name == ...)`). -/
def lookupLocal (packages : List (String × String)) (n : String) : Option String :=
  (packages.find? (fun q => decide (q.1 = n))).map (fun q => q.2)

/-! ## Update selection parsing (`update_packages`, lines 587-601) -/

/-- The `selected` vector: whitespace tokens, numeric parses kept, then
filtered to `1..=len`. -/
def selectedIndices (input : String) (total : Nat) : List Nat :=
  ((wordsS input).filterMap parseUsizeQ).filter (fun k => decide (0 < k) && decide (k ≤ total))

/-- The `to_update` computation: empty input or `all` (case-insensitive) keeps
every candidate, otherwise the valid selected indices are resolved through
`updates_available.get(i - 1)`. -/
def selectUpdates (input : String) (updates : List Candidate) : List Candidate :=
  if input = "" ∨ toLowerS input = "all" then updates
  else (selectedIndices input updates.length).filterMap (fun i => updates[i - 1]?)

/-- The update selection as the claim words it: token by token, a token that
parses to a position within `1..=|updates|` contributes the candidate at that
position, every other token is silently discarded. -/
def selectUpdatesClaim (input : String) (updates : List Candidate) : List Candidate :=
  if input = "" ∨ toLowerS input = "all" then updates
  else (wordsS input).filterMap (fun t =>
    match parseUsizeQ t with
    | none => none
    | some k =>
      if h : 1 ≤ k ∧ k ≤ updates.length then some (updates.get ⟨k - 1, by omega⟩)
      else none)

/-- The install flow's selection parse (`install_package`, lines 425-434): a
token parsing inside `1..=total` is accepted, anything else is a hard error. -/
def installSelection (input : String) (total : Nat) : Except String Nat :=
  match parseUsizeQ input with
  | some k =>
    if 1 ≤ k ∧ k ≤ total then .ok k
    else .error ("Invalid selection. Please enter a number between 1 and " ++
      toString total ++ ".")
  | none => .error ("Invalid selection. Please enter a number between 1 and " ++
    toString total ++ ".")

/-! ## Catalog display and selection resolution
(`install_package` / `search_packages`) -/

/-- A displayed catalog entry: an AUR record or an official
(name, version) header. -/
inductive Entry
  | aurE (p : AurPkg)
  | officialE (name : String) (version : String)
deriving DecidableEq

def entryName : Entry → String
  | .aurE p => p.name
  | .officialE n _ => n

/-- An official line is counted when it is non-indented and contains `[`
(the counting loops of both `search_packages` and `install_package`). -/
def isHeaderLine (s : String) : Bool := !wsFirstS s && (chars s).contains '['

def officialBracketCount (lines : List String) : Nat :=
  (lines.filter isHeaderLine).length

def beforeBracket (s : String) : List Char :=
  (chars s).takeWhile (fun c => c ≠ '[')

/-- Model of `display::print_official_pkg`: an entry is printed only when the line
contains `[` and the trimmed prefix before it has at least one token; the
name is that first token, the version the second (or empty). -/
def officialEntryQ (line : String) : Option Entry :=
  if (chars line).contains '[' then
    match wordsC (trimChars (beforeBracket line)) with
    | [] => none
    | nm :: rest => some (.officialE (ofChars nm) (ofChars (rest.headD [])))
  else none

/-- Rust `line.split_whitespace().next().unwrap_or("")` - the name the selection
resolution extracts from an official line. -/
def firstTokenS (line : String) : String := ofChars ((wordsC (chars line)).headD [])

/-- The AUR display loop: each record is printed at the current index, which
then decrements. -/
def displayAur (idx : Nat) : List AurPkg → List (Nat × Entry)
  | [] => []
  | p :: rest => (idx, .aurE p) :: displayAur (idx - 1) rest

/-- The official display loop: a non-indented line is printed at the current
index (when `print_official_pkg` shows it at all) and the index decrements;
the immediately following line is consumed by `lines.next()` as a description
candidate regardless of its shape; indented lines elsewhere are skipped. -/
def displayOfficial (idx : Nat) : List String → List (Nat × Entry)
  | [] => []
  | line :: rest =>
    if wsFirstS line then displayOfficial idx rest
    else
      match rest with
      | [] =>
        match officialEntryQ line with
        | some e => [(idx, e)]
        | none => []
      | _ :: rs =>
        (match officialEntryQ line with
          | some e => [(idx, e)]
          | none => []) ++ displayOfficial (idx - 1) rs

/-- Stable insertion: `p` goes before the first strictly greater element, so
equal keys keep their arrival order (the contract of Rust's stable
`sort_by` / `sort_by_key`). -/
def insertByAsc (lt : AurPkg → AurPkg → Bool) (p : AurPkg) : List AurPkg → List AurPkg
  | [] => [p]
  | q :: rest => if lt p q then p :: q :: rest else q :: insertByAsc lt p rest

def stableSortAsc (lt : AurPkg → AurPkg → Bool) (l : List AurPkg) : List AurPkg :=
  l.foldl (fun acc p => insertByAsc lt p acc) []

/-- The `install_package` sort key: `num_votes.unwrap_or(0)`. -/
def installLt (a b : AurPkg) : Bool :=
  decide (a.numVotes.getD 0 < b.numVotes.getD 0)

/-- The `search_packages` sort order on `Option<u32>` (`None` below `Some`). -/
def searchLt (a b : AurPkg) : Bool :=
  match a.numVotes, b.numVotes with
  | none, none => false
  | none, some _ => true
  | some _, none => false
  | some x, some y => decide (x < y)

def sortInstall (l : List AurPkg) : List AurPkg := stableSortAsc installLt l

def sortSearch (l : List AurPkg) : List AurPkg := stableSortAsc searchLt l

/-- The displayed catalog for an already-sorted AUR list: AUR records from
index `N` downward, then the official lines continuing downward. -/
def displayedCatalog (combined : List AurPkg) (lines : List String) :
    List (Nat × Entry) :=
  displayAur (officialBracketCount lines + combined.length) combined ++
    displayOfficial
      (officialBracketCount lines + combined.length - combined.length) lines

def installDisplayed (aur : List AurPkg) (lines : List String) : List (Nat × Entry) :=
  displayedCatalog (sortInstall aur) lines

def searchDisplayed (aur : List AurPkg) (lines : List String) : List (Nat × Entry) :=
  displayedCatalog (sortSearch aur) lines

def totalCount (aur : List AurPkg) (lines : List String) : Nat :=
  officialBracketCount lines + (sortInstall aur).length

/-- The official-name scan of the selection resolution (`install_package`,
lines 442-453): count bracketed non-indented lines until the target ordinal,
then take the line's first whitespace token; `""` when never reached. -/
def findOfficialNameAux (target : Nat) (cnt : Nat) : List String → String
  | [] => ""
  | line :: rest =>
    if isHeaderLine line then
      if cnt + 1 = target then firstTokenS line
      else findOfficialNameAux target (cnt + 1) rest
    else findOfficialNameAux target cnt rest

/-- Selection resolution of `install_package` (lines 425-454) over an
already-sorted AUR list: range-check the selection, invert it arithmetically
(`reversed = total - selection + 1`), and read the record name either out of
the sorted AUR vector or by re-scanning the official lines. -/
def resolveFromCatalog (combined : List AurPkg) (lines : List String)
    (selection : Nat) : Option String :=
  if 1 ≤ selection ∧ selection ≤ officialBracketCount lines + combined.length then
    if h : officialBracketCount lines + combined.length - selection + 1 ≤
        combined.length then
      some (combined.get
        ⟨officialBracketCount lines + combined.length - selection, by omega⟩).name
    else
      some (findOfficialNameAux
        (officialBracketCount lines + combined.length - selection + 1 -
          combined.length) 0 lines)
  else none

def resolveSelection (aur : List AurPkg) (lines : List String) (selection : Nat) :
    Option String :=
  resolveFromCatalog (sortInstall aur) lines selection

/-- The headers the counting and resolution loops agree on. -/
def headersOf (lines : List String) : List String := lines.filter isHeaderLine

/-- A well-formed official header for the amended bijection claim: counted by
the counting loop, printed by `print_official_pkg`, and printed under the same
name the resolution scan would extract. -/
def isHeaderOk (line : String) : Bool :=
  isHeaderLine line &&
    match officialEntryQ line with
    | some (.officialE nm _) => nm == firstTokenS line
    | _ => false

/-- Well-formed local search output: header lines, each followed by an
indented description line (the last header may stand alone). -/
def wfLines : List String → Bool
  | [] => true
  | [h] => isHeaderOk h
  | h :: d :: rest => isHeaderOk h && wsFirstS d && wfLines rest

/-- The list `[i, i-1, ..., i-k+1]` - the index sequence a descending display of `k`
entries starting at `i` produces. -/
def countdown (i : Nat) : Nat → List Nat
  | 0 => []
  | k + 1 => i :: countdown (i - 1) k

/-- The entry printed for a well-formed header line. -/
def entryOfD (h : String) : Entry := (officialEntryQ h).getD (.officialE "" "")

/-- Descending enumeration of a header list starting at index `i` - the shape
`displayOfficial` takes on well-formed lines. -/
def enumOff (i : Nat) : List String → List (Nat × Entry)
  | [] => []
  | h :: t => (i, entryOfD h) :: enumOff (i - 1) t

/-! ## Remote search error classification (`aur::search`) -/

/-- Model of `AurorusError`; the `From<reqwest::Error>` impl sends every reqwest error
(transport and body-decode alike) to `network`. -/
inductive AurorusErrorM
  | network (e : String)
  | ioError (e : String)
  | httpStatus (s : String)
  | otherError (s : String)
deriving DecidableEq

/-- The observable shape of one HTTP exchange: status and the outcome of
decoding the body as JSON (a `reqwest::Error` on failure). -/
structure HttpRespM where
  statusSuccess : Bool
  statusText : String
  bodyJson : Except String AurResponseM

/-- Model of `aur::search`: a transport failure propagates through `?` and the
`From<reqwest::Error>` impl; a non-success status becomes `HttpStatus`; a
body-decode failure also propagates through `?` as a reqwest error. -/
def aurSearch (send : Except String HttpRespM) : Except AurorusErrorM AurResponseM :=
  match send with
  | .error e => .error (.network e)
  | .ok resp =>
    if !resp.statusSuccess then .error (.httpStatus resp.statusText)
    else
      match resp.bodyJson with
      | .error e => .error (.network e)
      | .ok v => .ok v

/-- Discriminator: is the outcome the HTTP-status error class (the code's
analogue of the spec's `ProtocolError`)? -/
def isHttpStatusErr : Except AurorusErrorM AurResponseM → Bool
  | .error (.httpStatus _) => true
  | _ => false

/-- The field set of one JSON result object, before schema checking. -/
structure RawPkgJson where
  name : Option String
  version : Option String
  description : Option String
  url : Option String
  numVotes : Option Nat

/-- The serde derive on `types::AurPackage`: `Name` and `Version` are
required, the `Option` fields default to `None` when missing. -/
def decodeAurPackage (f : RawPkgJson) : Except String AurPkg :=
  match f.name, f.version with
  | some n, some v => .ok ⟨n, v, f.description, f.url, f.numVotes⟩
  | none, _ => .error "missing field Name"
  | some _, none => .error "missing field Version"

/-! ## Uninstall (`actions::uninstall_package`) -/

/-- Model of `uninstall_package`, instrumented with the list of subprocess command
lines it runs: an empty package list short-circuits to success before any
command; otherwise one `sudo pacman -Rns <packages>` run decides the result. -/
def uninstallPackage (packages : List String) (removeOk : Bool) :
    List (List String) × Except String Unit :=
  if packages.isEmpty then ([], .ok ())
  else
    ([["sudo", "pacman", "-Rns"] ++ packages],
      if removeOk then .ok () else .error "Failed to remove packages")

/-! ## Lemmas: batch chunking -/

theorem chunksOf_nil (n : Nat) : chunksOf n [] = [] := by
  rw [chunksOf]

theorem chunksOf_cons (n : Nat) (x : String × String) (xs : List (String × String)) :
    chunksOf n (x :: xs) = (x :: xs.take (n - 1)) :: chunksOf n (xs.drop (n - 1)) := by
  rw [chunksOf]

theorem chunksOf_flatten (n : Nat) (l : List (String × String)) :
    (chunksOf n l).flatten = l := by
  induction l using chunksOf.induct n with
  | case1 => rw [chunksOf_nil]; rfl
  | case2 x xs ih =>
    rw [chunksOf_cons]
    simp [ih]

theorem chunksOf_length_le (n : Nat) (hn : 1 ≤ n) (l : List (String × String)) :
    ∀ c ∈ chunksOf n l, c.length ≤ n := by
  induction l using chunksOf.induct n with
  | case1 => simp [chunksOf_nil]
  | case2 x xs ih =>
    intro c hc
    rw [chunksOf_cons] at hc
    rcases List.mem_cons.mp hc with rfl | hc
    · simp only [List.length_cons, List.length_take]
      omega
    · exact ih c hc

theorem chunksOf_sizes_120 (l : List (String × String)) (h : l.length = 120) :
    (chunksOf 50 l).map List.length = [50, 50, 20] := by
  rcases l with _ | ⟨x1, xs⟩
  · simp at h
  have hxs : xs.length = 119 := by simpa using h
  rcases h2 : xs.drop 49 with _ | ⟨x2, t2⟩
  · have := congrArg List.length h2
    simp [hxs] at this
  have ht2 : t2.length = 69 := by
    have := congrArg List.length h2
    simp [hxs] at this
    omega
  rcases h3 : t2.drop 49 with _ | ⟨x3, t3⟩
  · have := congrArg List.length h3
    simp [ht2] at this
  have ht3 : t3.length = 19 := by
    have := congrArg List.length h3
    simp [ht2] at this
    omega
  have h4 : t3.drop 49 = [] := by
    apply List.length_eq_zero.mp
    simp [ht3]
  rw [chunksOf_cons, h2, chunksOf_cons, h3, chunksOf_cons, h4, chunksOf_nil]
  simp only [List.map_cons, List.map_nil, List.length_cons, List.length_take]
  rw [hxs, ht2, ht3]
  norm_num

/-! ## Lemmas: version comparator -/

theorem cmpNat_swap (a b : Nat) : cmpNat b a = invOrd (cmpNat a b) := by
  unfold cmpNat
  rcases Nat.lt_trichotomy a b with h | h | h
  · simp [h, Nat.lt_asymm h, invOrd]
  · simp [h, Nat.lt_irrefl, invOrd]
  · simp [h, Nat.lt_asymm h, invOrd]

theorem cmpNat_refl (a : Nat) : cmpNat a a = .eq := by
  simp [cmpNat]

theorem cmpChars_swap (x y : List Char) : cmpChars y x = invOrd (cmpChars x y) := by
  induction x generalizing y with
  | nil => cases y <;> simp [cmpChars, invOrd]
  | cons a x ih =>
    cases y with
    | nil => simp [cmpChars, invOrd]
    | cons b y =>
      rcases lt_trichotomy a b with h | h | h
      · simp [cmpChars, h, not_lt_of_lt h, ne_of_lt h, invOrd]
      · subst h
        simp [cmpChars, lt_irrefl, ih]
      · simp [cmpChars, h, not_lt_of_lt h, ne_of_gt h, invOrd]

theorem cmpChars_refl (x : List Char) : cmpChars x x = .eq := by
  induction x with
  | nil => rfl
  | cons a x ih => simp [cmpChars, lt_irrefl, ih]

theorem invOrd_eq_eq {v : VOrd} : invOrd v = .eq ↔ v = .eq := by
  cases v <;> simp [invOrd]

theorem cmpSegs_swap (x y : List Seg) : cmpSegs y x = invOrd (cmpSegs x y) := by
  induction x generalizing y with
  | nil => cases y <;> simp [cmpSegs, invOrd]
  | cons a x ih =>
    cases y with
    | nil => cases a <;> simp [cmpSegs, invOrd]
    | cons b y =>
      cases a with
      | num da =>
        cases b with
        | num db =>
          simp only [cmpSegs]
          rw [cmpNat_swap (digitsToNat da) (digitsToNat db)]
          by_cases h : cmpNat (digitsToNat da) (digitsToNat db) = .eq
          · rw [h]
            simp [invOrd, ih]
          · rw [if_neg (by simp [invOrd_eq_eq, h]), if_neg h]
        | str db => simp [cmpSegs, invOrd]
      | str da =>
        cases b with
        | num db => simp [cmpSegs, invOrd]
        | str db =>
          simp only [cmpSegs]
          rw [cmpChars_swap da db]
          by_cases h : cmpChars da db = .eq
          · rw [h]
            simp [invOrd, ih]
          · rw [if_neg (by simp [invOrd_eq_eq, h]), if_neg h]

theorem cmpSegs_refl (x : List Seg) : cmpSegs x x = .eq := by
  induction x with
  | nil => rfl
  | cons a x ih => cases a <;> simp [cmpSegs, cmpNat_refl, cmpChars_refl, ih]

theorem vcompare_swap (a b : String) : vcompare b a = invOrd (vcompare a b) := by
  unfold vcompare
  by_cases h : tokSegs (chars a) = [] ∨ tokSegs (chars b) = []
  · rcases h with h | h <;> simp [h, invOrd]
  · push_neg at h
    rw [if_neg (by tauto), if_neg (by tauto)]
    exact cmpSegs_swap _ _

theorem invOrd_eq_gt {v : VOrd} : invOrd v = .gt ↔ v = .lt := by
  cases v <;> simp [invOrd]

/-- Comparison `vcompare a b = .lt` holds exactly when both sides parse and the segment
comparison is `lt` - the emission condition of the update loop. -/
theorem vcompare_lt_iff (a b : String) :
    vcompare a b = .lt ↔
      ∃ x y, versionParseQ a = some x ∧ versionParseQ b = some y ∧
        cmpSegs x y = .lt := by
  unfold vcompare versionParseQ
  by_cases ha : tokSegs (chars a) = [] <;> by_cases hb : tokSegs (chars b) = [] <;>
    simp [ha, hb]

/-! ## C3: version comparator order properties -/

/-- C3: for every pair of version strings, `compare(b, a)` is the inverse of
`compare(a, b)` (`Less` swaps with `Greater`, `Equal` and `Incomparable` are
fixed); for every tokenizable version string, `compare(a, a) = Equal`; and
`compare("1.2.3", "1.2.10") = Less`, the digit runs `3` and `10` being
compared as unsigned integers rather than lexicographically. -/
theorem c3_version_comparator_order :
    (∀ a b : String, vcompare b a = invOrd (vcompare a b)) ∧
    (∀ a : String, tokSegs (chars a) ≠ [] → vcompare a a = .eq) ∧
    vcompare "1.2.3" "1.2.10" = .lt := by
  refine ⟨vcompare_swap, fun a h => ?_, by decide⟩
  unfold vcompare
  rw [if_neg (by tauto)]
  exact cmpSegs_refl _

/-- Witness for C3 at the concrete version string `"1.0"`. -/
theorem c3_version_comparator_order_witness :
    tokSegs (chars "1.0") ≠ [] ∧ vcompare "1.0" "1.0" = .eq :=
  ⟨by decide, c3_version_comparator_order.2.1 "1.0" (by decide)⟩

/-! ## C4: dependency extraction -/

/-- The accumulating loop of `parse_dependencies` is the per-line
`filterMap`. -/
theorem parseDepsGo_filterMap (lines : List String) :
    parseDepsGo lines = lines.filterMap depOfLine := by
  induction lines with
  | nil => rfl
  | cons line rest ih =>
    rcases h : depOfLine line with _ | d <;>
      simp [parseDepsGo, List.filterMap_cons, h, ih]

/-- C4 counterexample: on the line `depends = a=b` the code keeps only the
field between the first and second `=` (yielding `"a"`), not everything after
the first `=` (which would be `"a=b"`) as the claim states. -/
theorem c4_counterexample :
    parse_dependencies "depends = a=b" = ["a"] ∧
      parse_dependencies "depends = a=b" ≠ ["a=b"] := by
  constructor
  · decide
  · decide

/-- C4 (amended): for every manifest text, `parse_dependencies` returns, in
line order and preserving duplicates, one name per line whose trimmed content
begins with `depends =`; the name is the text between the first and second
`=` of the line, trimmed; all other lines are ignored, and a manifest with no
such line yields `[]`, not an error. -/
theorem c4_dependency_extraction_amended :
    (∀ s : String, parse_dependencies s = extractDepsAmended s) ∧
    parse_dependencies "pkgname = foo\ndepends = bar\n    depends = baz" =
      ["bar", "baz"] ∧
    parse_dependencies "depends = a\ndepends = a" = ["a", "a"] ∧
    parse_dependencies "pkgname = foo\nsource = xyz" = [] := by
  refine ⟨fun s => parseDepsGo_filterMap _, by decide, by decide, by decide⟩

/-! ## C7: batch chunk partition -/

/-- C7: `update_packages` partitions the installed-package sequence into
consecutive chunks of at most 50 names each, preserving order (flattening the
chunks recovers the name sequence); for 120 installed packages exactly 3
chunk queries arise, of sizes 50, 50 and 20. -/
theorem c7_batch_chunk_partition :
    (∀ pkgs : List (String × String),
      (packagesChunks pkgs).flatten = pkgs.map (fun q => q.1) ∧
      ∀ c ∈ packagesChunks pkgs, c.length ≤ 50) ∧
    (∀ pkgs : List (String × String), pkgs.length = 120 →
      (packagesChunks pkgs).length = 3 ∧
      (packagesChunks pkgs).map List.length = [50, 50, 20]) := by
  constructor
  · intro pkgs
    constructor
    · unfold packagesChunks
      rw [← List.map_flatten, chunksOf_flatten]
    · intro c hc
      unfold packagesChunks at hc
      rcases List.mem_map.mp hc with ⟨c0, hc0, rfl⟩
      simpa using chunksOf_length_le 50 (by omega) pkgs c0 hc0
  · intro pkgs h
    have hs : (chunksOf 50 pkgs).map List.length = [50, 50, 20] :=
      chunksOf_sizes_120 pkgs h
    have hlen : (chunksOf 50 pkgs).length = 3 := by
      have := congrArg List.length hs
      simpa using this
    constructor
    · simpa [packagesChunks] using hlen
    · unfold packagesChunks
      rw [List.map_map]
      have : List.length ∘ List.map (fun q : String × String => q.1) = List.length := by
        funext c
        simp
      rw [this, hs]

/-- Witness for C7 at a concrete list of 120 installed packages. -/
theorem c7_batch_chunk_partition_witness :
    (packagesChunks (List.replicate 120 ("pkg", "1.0"))).length = 3 ∧
    (packagesChunks (List.replicate 120 ("pkg", "1.0"))).map List.length =
      [50, 50, 20] :=
  c7_batch_chunk_partition.2 (List.replicate 120 ("pkg", "1.0")) (by simp)

/-! ## C8: remote search error classification -/

/-- C8 counterexample: a response with a successful HTTP status whose body
fails to decode is classified as `network` (via the blanket
`From<reqwest::Error>` impl), not as the protocol-error class (`httpStatus`)
the claim requires for parse failures. -/
theorem c8_counterexample :
    aurSearch (.ok ⟨true, "200 OK", .error "error decoding response body"⟩) =
      .error (.network "error decoding response body") ∧
    isHttpStatusErr
      (aurSearch (.ok ⟨true, "200 OK", .error "error decoding response body"⟩)) =
      false := by
  exact ⟨rfl, rfl⟩

/-- C8 (amended): `aur::search` fails with the network error class on
transport failure and also on a payload that fails to parse (both arrive as
`reqwest` errors and the blanket `From` impl maps them to `Network`); it
fails with the HTTP-status error class exactly when the remote responded with
a non-success status; and a result object merely missing the optional fields
(description, homepage, popularity) still decodes, while a missing `Name` is
an error. -/
theorem c8_error_classification_amended :
    (∀ e, aurSearch (.error e) = .error (.network e)) ∧
    (∀ t j, aurSearch (.ok ⟨false, t, j⟩) = .error (.httpStatus t)) ∧
    (∀ t e, aurSearch (.ok ⟨true, t, .error e⟩) = .error (.network e)) ∧
    (∀ t v, aurSearch (.ok ⟨true, t, .ok v⟩) = .ok v) ∧
    (∀ n v, decodeAurPackage ⟨some n, some v, none, none, none⟩ =
      .ok ⟨n, v, none, none, none⟩) ∧
    (∀ v d u w, ∃ m, decodeAurPackage ⟨none, v, d, u, w⟩ = .error m) := by
  exact ⟨fun e => rfl, fun t j => rfl, fun t e => rfl, fun t v => rfl,
    fun n v => rfl, fun v d u w => ⟨"missing field Name", rfl⟩⟩

/-! ## C9: uninstall with an empty package list -/

/-- C9: `uninstall_package` invoked with an empty package list returns
success without invoking the package-manager removal subprocess (the list of
commands run is empty), whatever the subprocess would have reported. -/
theorem c9_uninstall_empty_noop :
    ∀ removeOk : Bool, uninstallPackage [] removeOk = ([], .ok ()) :=
  fun _ => rfl

/-! ## C5: update strictness -/

/-- Emission: `candOf` emits `(n, lv, rv)` exactly when the record is named `n` with
remote version `rv`, `n`'s first installed version is `lv`, and the remote
version is strictly greater under the comparator. -/
theorem candOf_eq_some_iff (pkgs : List (String × String)) (p : AurPkg)
    (n lv rv : String) :
    candOf pkgs p = some (n, lv, rv) ↔
      p.name = n ∧ p.version = rv ∧ lookupLocal pkgs n = some lv ∧
        vcompare rv lv = .gt := by
  rcases hf : pkgs.find? (fun q => decide (q.1 = p.name)) with _ | ⟨nm, locv⟩
  · have hc : candOf pkgs p = none := by
      unfold candOf
      rw [hf]
    constructor
    · intro h
      rw [hc] at h
      simp at h
    · rintro ⟨rfl, rfl, hl, -⟩
      unfold lookupLocal at hl
      rw [hf] at hl
      simp at hl
  · rcases ha : versionParseQ locv with _ | a
    · have hc : candOf pkgs p = none := by
        unfold candOf
        rw [hf]
        simp only [ha]
      constructor
      · intro h
        rw [hc] at h
        simp at h
      · rintro ⟨rfl, rfl, hl, hg⟩
        unfold lookupLocal at hl
        rw [hf] at hl
        simp at hl
        subst hl
        exfalso
        have hlt : vcompare locv p.version = .lt := by
          rw [← invOrd_eq_gt, ← vcompare_swap]
          exact hg
        rcases (vcompare_lt_iff _ _).mp hlt with ⟨a2, b2, ha2, hb2, -⟩
        rw [ha] at ha2
        exact Option.noConfusion ha2
    · rcases hb : versionParseQ p.version with _ | b
      · have hc : candOf pkgs p = none := by
          unfold candOf
          rw [hf]
          simp only [ha, hb]
        constructor
        · intro h
          rw [hc] at h
          simp at h
        · rintro ⟨rfl, rfl, hl, hg⟩
          unfold lookupLocal at hl
          rw [hf] at hl
          simp at hl
          subst hl
          exfalso
          have hlt : vcompare locv p.version = .lt := by
            rw [← invOrd_eq_gt, ← vcompare_swap]
            exact hg
          rcases (vcompare_lt_iff _ _).mp hlt with ⟨a2, b2, ha2, hb2, -⟩
          rw [hb] at hb2
          exact Option.noConfusion hb2
      · have hc : candOf pkgs p =
            if cmpSegs a b = .lt then some (p.name, locv, p.version) else none := by
          unfold candOf
          rw [hf]
          simp only [ha, hb]
        rw [hc]
        by_cases hcmp : cmpSegs a b = .lt
        · rw [if_pos hcmp]
          constructor
          · intro h
            obtain ⟨h1, h2, h3⟩ : p.name = n ∧ locv = lv ∧ p.version = rv := by
              simpa using h
            subst h1
            subst h2
            subst h3
            refine ⟨rfl, rfl, ?_, ?_⟩
            · unfold lookupLocal
              rw [hf]
              rfl
            · rw [vcompare_swap, invOrd_eq_gt]
              exact (vcompare_lt_iff _ _).mpr ⟨a, b, ha, hb, hcmp⟩
          · rintro ⟨rfl, rfl, hl, -⟩
            unfold lookupLocal at hl
            rw [hf] at hl
            simp at hl
            subst hl
            rfl
        · rw [if_neg hcmp]
          constructor
          · intro h
            simp at h
          · rintro ⟨rfl, rfl, hl, hg⟩
            unfold lookupLocal at hl
            rw [hf] at hl
            simp at hl
            subst hl
            exfalso
            have hlt : vcompare locv p.version = .lt := by
              rw [← invOrd_eq_gt, ← vcompare_swap]
              exact hg
            rcases (vcompare_lt_iff _ _).mp hlt with ⟨a2, b2, ha2, hb2, hc2⟩
            rw [ha] at ha2
            rw [hb] at hb2
            obtain rfl : a = a2 := by injection ha2
            obtain rfl : b = b2 := by injection hb2
            exact hcmp hc2

/-- Membership in one chunk's candidates. -/
theorem chunkCandidates_mem_iff (resp : AurResponseM)
    (pkgs : List (String × String)) (c : Candidate) :
    c ∈ chunkCandidates resp pkgs ↔
      ∃ l, resp.results = some l ∧ ∃ p ∈ l, candOf pkgs p = some c := by
  unfold chunkCandidates
  rcases h : resp.results with _ | l <;> simp [h]

/-- A candidate appears in the processed results exactly when some
successfully parsed chunk response contributed it. -/
theorem processResults_mem_iff (results : List (Except String AurResponseM))
    (pkgs : List (String × String)) (c : Candidate) :
    c ∈ processResults results pkgs ↔
      ∃ resp, Except.ok resp ∈ results ∧ c ∈ chunkCandidates resp pkgs := by
  induction results with
  | nil => simp [processResults]
  | cons r rest ih =>
    cases r with
    | error e => simp [processResults, ih]
    | ok resp0 =>
      simp only [processResults, List.mem_append, ih, List.mem_cons]
      constructor
      · rintro (hc | ⟨resp, hr, hc⟩)
        · exact ⟨resp0, Or.inl rfl, hc⟩
        · exact ⟨resp, Or.inr hr, hc⟩
      · rintro ⟨resp, hr | hr, hc⟩
        · obtain rfl : resp = resp0 := by injection hr
          exact Or.inl hc
        · exact Or.inr ⟨resp, hr, hc⟩

/-- C5: within one update-check cycle an update candidate `(n, lv, rv)` is
emitted if and only if some successfully fetched chunk response contains a
record named `n` with remote version `rv`, `n` is installed at version `lv`
(first match), and the remote version is strictly `Greater` than the
installed one under the comparator; `Equal`, `Less` and `Incomparable`
results produce no candidate. -/
theorem c5_update_strictness (results : List (Except String AurResponseM))
    (pkgs : List (String × String)) (n lv rv : String) :
    (n, lv, rv) ∈ processResults results pkgs ↔
      ∃ resp, Except.ok resp ∈ results ∧
        ∃ l, resp.results = some l ∧
          ∃ p ∈ l, p.name = n ∧ p.version = rv ∧
            lookupLocal pkgs n = some lv ∧ vcompare rv lv = .gt := by
  rw [processResults_mem_iff]
  simp only [chunkCandidates_mem_iff, candOf_eq_some_iff]

/-! ## C6: per-chunk failure isolation -/

/-- C6 (amended): a failed chunk query contributes zero candidates and does
not abort the sibling chunks or the overall operation - removing it from the
result list leaves the computed candidates unchanged; the failure is
silently discarded (no failed-chunk count is surfaced), not raised as a
fatal error. -/
theorem c6_chunk_isolation_amended (l1 l2 : List (Except String AurResponseM))
    (e : String) (pkgs : List (String × String)) :
    processResults (l1 ++ .error e :: l2) pkgs = processResults (l1 ++ l2) pkgs := by
  induction l1 with
  | nil => rfl
  | cons r l1 ih =>
    cases r with
    | error e2 => simpa [processResults] using ih
    | ok resp => simpa [processResults] using ih

/-- Witness for C6 (amended) at concrete chunk results: chunk 2 of 3 fails,
candidates of chunks 1 and 3 survive. -/
theorem c6_chunk_isolation_amended_witness :
    processResults
        [.ok ⟨5, "multiinfo", 1, some [⟨"p", "2.0", none, none, none⟩]⟩,
          .error "connection reset",
          .ok ⟨5, "multiinfo", 1, some [⟨"q", "3.0", none, none, none⟩]⟩]
        [("p", "1.0"), ("q", "1.0")] =
      [("p", "1.0", "2.0"), ("q", "1.0", "3.0")] := by
  have h := c6_chunk_isolation_amended
    [.ok ⟨5, "multiinfo", 1, some [⟨"p", "2.0", none, none, none⟩]⟩]
    [.ok ⟨5, "multiinfo", 1, some [⟨"q", "3.0", none, none, none⟩]⟩]
    "connection reset" [("p", "1.0"), ("q", "1.0")]
  rw [show ([.ok ⟨5, "multiinfo", 1, some [⟨"p", "2.0", none, none, none⟩]⟩,
      .error "connection reset",
      .ok ⟨5, "multiinfo", 1, some [⟨"q", "3.0", none, none, none⟩]⟩] :
        List (Except String AurResponseM)) =
      [.ok ⟨5, "multiinfo", 1, some [⟨"p", "2.0", none, none, none⟩]⟩] ++
        .error "connection reset" ::
          [.ok ⟨5, "multiinfo", 1, some [⟨"q", "3.0", none, none, none⟩]⟩]
    from rfl, h]
  decide

/-- C6 counterexample: the caller-visible result of the diff cycle is
identical whether zero, one or two chunks failed - no count of failed chunks
is reported to the caller, contradicting the claim's reporting requirement. -/
theorem c6_counterexample :
    processResults
        [.error "boom",
          .ok ⟨5, "multiinfo", 1, some [⟨"p", "2.0", none, none, none⟩]⟩]
        [("p", "1.0")] =
      processResults
        [.ok ⟨5, "multiinfo", 1, some [⟨"p", "2.0", none, none, none⟩]⟩]
        [("p", "1.0")] ∧
    processResults
        [.error "boom", .error "again",
          .ok ⟨5, "multiinfo", 1, some [⟨"p", "2.0", none, none, none⟩]⟩]
        [("p", "1.0")] =
      processResults
        [.ok ⟨5, "multiinfo", 1, some [⟨"p", "2.0", none, none, none⟩]⟩]
        [("p", "1.0")] ∧
    processResults
        [.ok ⟨5, "multiinfo", 1, some [⟨"p", "2.0", none, none, none⟩]⟩]
        [("p", "1.0")] = [("p", "1.0", "2.0")] := by
  refine ⟨?_, ?_, ?_⟩ <;> decide

/-! ## C10: lenient update selection vs. strict install selection -/

/-- The two-pass selection of the update flow (collect indices, filter to
range, then look each up) equals the per-token description: each token either
resolves to the candidate at its position or is silently discarded. -/
theorem selectTokens_eq (toks : List String) (u : List Candidate) :
    ((toks.filterMap parseUsizeQ).filter
        (fun k => decide (0 < k) && decide (k ≤ u.length))).filterMap
      (fun i => u[i - 1]?) =
    toks.filterMap (fun t =>
      match parseUsizeQ t with
      | none => none
      | some k =>
        if h : 1 ≤ k ∧ k ≤ u.length then some (u.get ⟨k - 1, by omega⟩)
        else none) := by
  rw [List.filter_filterMap, List.filterMap_filterMap]
  refine congrArg (fun f => toks.filterMap f) (funext fun t => ?_)
  rcases hp : parseUsizeQ t with _ | k
  · simp [hp]
  · by_cases hk : 1 ≤ k ∧ k ≤ u.length
    · have hb : (decide (0 < k) && decide (k ≤ u.length)) = true := by
        simp only [Bool.and_eq_true, decide_eq_true_eq]
        omega
      have hget : u[k - 1]? = some (u.get ⟨k - 1, by omega⟩) := by
        rw [List.getElem?_eq_getElem (by omega)]
        simp
      simp [hp, Option.filter, hb, hget, dif_pos hk]
    · have hb : (decide (0 < k) && decide (k ≤ u.length)) = false := by
        simp only [Bool.and_eq_false_iff, decide_eq_false_iff_not]
        omega
      simp [hp, Option.filter, hb, dif_neg hk]

/-- C10: in the update flow's selection parsing, every token that is
non-numeric, zero, or greater than the number of listed candidates is
silently discarded rather than causing an error - the selected updates are
exactly the candidates at the remaining valid positions, and an empty input
or the word `all` selects every candidate; by contrast, in the install flow
any input that does not parse to a number inside `1..=total` is a hard
error. -/
theorem c10_update_selection_lenient :
    (∀ (input : String) (updates : List Candidate),
      selectUpdates input updates = selectUpdatesClaim input updates) ∧
    (∀ (updates : List Candidate),
      selectUpdates "" updates = updates ∧ selectUpdates "All" updates = updates) ∧
    (∀ (input : String) (total : Nat),
      (∃ m, installSelection input total = .error m) ∨
      (∃ k, parseUsizeQ input = some k ∧ 1 ≤ k ∧ k ≤ total ∧
        installSelection input total = .ok k)) := by
  refine ⟨?_, ?_, ?_⟩
  · intro input updates
    unfold selectUpdates selectUpdatesClaim selectedIndices
    by_cases h : input = "" ∨ toLowerS input = "all"
    · rw [if_pos h, if_pos h]
    · rw [if_neg h, if_neg h]
      exact selectTokens_eq _ _
  · intro updates
    constructor
    · unfold selectUpdates
      rw [if_pos (Or.inl rfl)]
    · unfold selectUpdates
      rw [if_pos (Or.inr (by decide))]
  · intro input total
    rcases hp : parseUsizeQ input with _ | k
    · exact Or.inl ⟨_, by unfold installSelection; rw [hp]⟩
    · by_cases hk : 1 ≤ k ∧ k ≤ total
      · refine Or.inr ⟨k, rfl, hk.1, hk.2, ?_⟩
        unfold installSelection
        rw [hp]
        simp [hk]
      · refine Or.inl
          ⟨"Invalid selection. Please enter a number between 1 and " ++
            toString total ++ ".", ?_⟩
        unfold installSelection
        rw [hp]
        simp only [if_neg hk]

/-! ## C1: catalog bijection and selection resolution -/

theorem isHeaderOk_entry (h : String) (hok : isHeaderOk h = true) :
    isHeaderLine h = true ∧ entryName (entryOfD h) = firstTokenS h := by
  unfold isHeaderOk at hok
  rcases h1 : officialEntryQ h with _ | e
  · rw [h1] at hok
    simp at hok
  · cases e with
    | aurE p =>
      rw [h1] at hok
      simp at hok
    | officialE nm v =>
      rw [h1] at hok
      simp only [Bool.and_eq_true, beq_iff_eq] at hok
      refine ⟨hok.1, ?_⟩
      unfold entryOfD
      rw [h1]
      simpa [entryName] using hok.2

theorem wsFirst_of_headerOk (h : String) (hok : isHeaderOk h = true) :
    wsFirstS h = false := by
  have hline := (isHeaderOk_entry h hok).1
  unfold isHeaderLine at hline
  simp only [Bool.and_eq_true, Bool.not_eq_true'] at hline
  exact hline.1

theorem officialEntryQ_of_headerOk (h : String) (hok : isHeaderOk h = true) :
    officialEntryQ h = some (entryOfD h) := by
  unfold isHeaderOk at hok
  rcases h1 : officialEntryQ h with _ | e
  · rw [h1] at hok
    simp at hok
  · unfold entryOfD
    rw [h1]
    rfl

theorem isHeaderLine_of_ws (d : String) (hd : wsFirstS d = true) :
    isHeaderLine d = false := by
  unfold isHeaderLine
  rw [hd]
  rfl

theorem headersOf_cons2 (h d : String) (rest : List String)
    (hok : isHeaderOk h = true) (hd : wsFirstS d = true) :
    headersOf (h :: d :: rest) = h :: headersOf rest := by
  unfold headersOf
  rw [List.filter_cons, List.filter_cons]
  rw [(isHeaderOk_entry h hok).1, isHeaderLine_of_ws d hd]
  rfl

theorem headersOf_single (h : String) (hok : isHeaderOk h = true) :
    headersOf [h] = [h] := by
  unfold headersOf
  rw [List.filter_cons]
  rw [(isHeaderOk_entry h hok).1]
  rfl

theorem headersOf_ok : ∀ L : List String, wfLines L = true →
    ∀ h ∈ headersOf L, isHeaderOk h = true := by
  intro L
  induction L using wfLines.induct with
  | case1 =>
    intro _ h hh
    simp [headersOf] at hh
  | case2 h0 =>
    intro hwf h hh
    have hok : isHeaderOk h0 = true := by simpa [wfLines] using hwf
    rw [headersOf_single h0 hok] at hh
    simp at hh
    subst hh
    exact hok
  | case3 h0 d rest ih =>
    intro hwf h hh
    obtain ⟨hok, hd, hrest⟩ :
        isHeaderOk h0 = true ∧ wsFirstS d = true ∧ wfLines rest = true := by
      simpa [wfLines, Bool.and_eq_true, and_assoc] using hwf
    rw [headersOf_cons2 h0 d rest hok hd] at hh
    rcases List.mem_cons.mp hh with rfl | hh
    · exact hok
    · exact ih hrest h hh

theorem displayOfficial_wf : ∀ L : List String, wfLines L = true →
    ∀ i, displayOfficial i L = enumOff i (headersOf L) := by
  intro L
  induction L using wfLines.induct with
  | case1 =>
    intro _ i
    rfl
  | case2 h =>
    intro hwf i
    have hok : isHeaderOk h = true := by simpa [wfLines] using hwf
    rw [headersOf_single h hok]
    unfold displayOfficial
    rw [wsFirst_of_headerOk h hok, officialEntryQ_of_headerOk h hok]
    rfl
  | case3 h d rest ih =>
    intro hwf i
    obtain ⟨hok, hd, hrest⟩ :
        isHeaderOk h = true ∧ wsFirstS d = true ∧ wfLines rest = true := by
      simpa [wfLines, Bool.and_eq_true, and_assoc] using hwf
    rw [headersOf_cons2 h d rest hok hd]
    unfold displayOfficial
    rw [wsFirst_of_headerOk h hok, officialEntryQ_of_headerOk h hok]
    simp only [enumOff]
    rw [← ih hrest (i - 1)]
    rfl

theorem findOfficialNameAux_wf : ∀ L : List String, wfLines L = true →
    ∀ cnt target, cnt < target → target ≤ cnt + (headersOf L).length →
    findOfficialNameAux target cnt L =
      firstTokenS ((headersOf L).getD (target - cnt - 1) "") := by
  intro L
  induction L using wfLines.induct with
  | case1 =>
    intro _ cnt target hlt hle
    simp [headersOf] at hle
    omega
  | case2 h =>
    intro hwf cnt target hlt hle
    have hok : isHeaderOk h = true := by simpa [wfLines] using hwf
    rw [headersOf_single h hok] at hle ⊢
    have ht : target = cnt + 1 := by
      simp at hle
      omega
    unfold findOfficialNameAux
    rw [(isHeaderOk_entry h hok).1]
    simp [ht]
  | case3 h d rest ih =>
    intro hwf cnt target hlt hle
    obtain ⟨hok, hd, hrest⟩ :
        isHeaderOk h = true ∧ wsFirstS d = true ∧ wfLines rest = true := by
      simpa [wfLines, Bool.and_eq_true, and_assoc] using hwf
    rw [headersOf_cons2 h d rest hok hd] at hle ⊢
    unfold findOfficialNameAux
    rw [(isHeaderOk_entry h hok).1]
    by_cases ht : cnt + 1 = target
    · rw [if_pos ht, show target - cnt - 1 = 0 from by omega]
      rfl
    · simp only [if_neg ht, if_pos rfl]
      unfold findOfficialNameAux
      rw [isHeaderLine_of_ws d hd]
      simp only [Bool.false_eq_true, if_neg (by simp : ¬False)]
      have hrec := ih hrest (cnt + 1) target (by omega)
        (by simp at hle ⊢; omega)
      rw [hrec]
      have hidx : target - cnt - 1 = (target - (cnt + 1) - 1) + 1 := by omega
      rw [hidx]
      rfl

theorem displayAur_map_fst (c : List AurPkg) :
    ∀ i, (displayAur i c).map Prod.fst = countdown i c.length := by
  induction c with
  | nil => intro i; rfl
  | cons p rest ih =>
    intro i
    simp only [displayAur, List.map_cons, List.length_cons, countdown, ih]

theorem enumOff_map_fst (hs : List String) :
    ∀ i, (enumOff i hs).map Prod.fst = countdown i hs.length := by
  induction hs with
  | nil => intro i; rfl
  | cons h rest ih =>
    intro i
    simp only [enumOff, List.map_cons, List.length_cons, countdown, ih]

theorem countdown_append (a b : Nat) :
    ∀ i, countdown i (a + b) = countdown i a ++ countdown (i - a) b := by
  induction a with
  | zero => intro i; simp [countdown]
  | succ a ih =>
    intro i
    have h1 : a + 1 + b = (a + b) + 1 := by omega
    rw [h1]
    simp only [countdown, ih (i - 1), List.cons_append]
    have h2 : i - 1 - a = i - (a + 1) := by omega
    rw [h2]

theorem displayAur_mem (c : List AurPkg) :
    ∀ i0 j (hj : j < c.length),
      (i0 - j, Entry.aurE (c.get ⟨j, hj⟩)) ∈ displayAur i0 c := by
  induction c with
  | nil =>
    intro i0 j hj
    simp at hj
  | cons p rest ih =>
    intro i0 j hj
    cases j with
    | zero => simp [displayAur]
    | succ j =>
      have hj2 : j < rest.length := by simpa using hj
      have := ih (i0 - 1) j hj2
      rw [show i0 - 1 - j = i0 - (j + 1) from by omega] at this
      exact List.mem_cons_of_mem _ this

theorem enumOff_mem (hs : List String) :
    ∀ i0 j (hj : j < hs.length),
      (i0 - j, entryOfD (hs.get ⟨j, hj⟩)) ∈ enumOff i0 hs := by
  induction hs with
  | nil =>
    intro i0 j hj
    simp at hj
  | cons h rest ih =>
    intro i0 j hj
    cases j with
    | zero => simp [enumOff]
    | succ j =>
      have hj2 : j < rest.length := by simpa using hj
      have := ih (i0 - 1) j hj2
      rw [show i0 - 1 - j = i0 - (j + 1) from by omega] at this
      exact List.mem_cons_of_mem _ this

/-- Catalog/resolution agreement over an arbitrary already-sorted AUR list
and well-formed official lines. -/
theorem displayedCatalog_resolve (combined : List AurPkg) (L : List String)
    (hwf : wfLines L = true) :
    ((displayedCatalog combined L).map Prod.fst =
      countdown (officialBracketCount L + combined.length)
        (officialBracketCount L + combined.length)) ∧
    (∀ i, 1 ≤ i → i ≤ officialBracketCount L + combined.length →
      ∃ e, (i, e) ∈ displayedCatalog combined L ∧
        resolveFromCatalog combined L i = some (entryName e)) := by
  have hN : officialBracketCount L = (headersOf L).length := rfl
  constructor
  · unfold displayedCatalog
    rw [List.map_append, displayAur_map_fst, displayOfficial_wf L hwf,
      enumOff_map_fst, ← hN]
    rw [← countdown_append combined.length (officialBracketCount L)]
    rw [show combined.length + officialBracketCount L =
      officialBracketCount L + combined.length from by omega]
  · intro i h1 h2
    by_cases hA : officialBracketCount L + combined.length - i + 1 ≤ combined.length
    · have hj : officialBracketCount L + combined.length - i < combined.length := by
        omega
      refine ⟨.aurE (combined.get
        ⟨officialBracketCount L + combined.length - i, hj⟩), ?_, ?_⟩
      · unfold displayedCatalog
        apply List.mem_append_left
        have hmem := displayAur_mem combined
          (officialBracketCount L + combined.length)
          (officialBracketCount L + combined.length - i) hj
        rw [show officialBracketCount L + combined.length -
            (officialBracketCount L + combined.length - i) = i from by omega] at hmem
        exact hmem
      · unfold resolveFromCatalog
        rw [if_pos ⟨h1, h2⟩, dif_pos hA]
        rfl
    · have hi : i ≤ (headersOf L).length := by omega
      have hj : (headersOf L).length - i < (headersOf L).length := by omega
      refine ⟨entryOfD ((headersOf L).get ⟨(headersOf L).length - i, hj⟩), ?_, ?_⟩
      · unfold displayedCatalog
        apply List.mem_append_right
        rw [displayOfficial_wf L hwf]
        have hmem := enumOff_mem (headersOf L)
          (officialBracketCount L + combined.length - combined.length)
          ((headersOf L).length - i) hj
        rw [show officialBracketCount L + combined.length - combined.length -
            ((headersOf L).length - i) = i from by omega] at hmem
        exact hmem
      · unfold resolveFromCatalog
        rw [if_pos ⟨h1, h2⟩, dif_neg hA]
        have htarget := findOfficialNameAux_wf L hwf 0
          (officialBracketCount L + combined.length - i + 1 - combined.length)
          (by omega) (by omega)
        rw [htarget]
        have hidx : officialBracketCount L + combined.length - i + 1 -
            combined.length - 0 - 1 = (headersOf L).length - i := by omega
        have hgd : (headersOf L).getD
            (officialBracketCount L + combined.length - i + 1 -
              combined.length - 0 - 1) "" =
            (headersOf L).get ⟨(headersOf L).length - i, hj⟩ := by
          rw [hidx, List.getD_eq_getElem (headersOf L) "" hj, List.get_eq_getElem]
        rw [hgd]
        have hok := headersOf_ok L hwf _
          (List.get_mem (headersOf L) ((headersOf L).length - i) hj)
        rw [(isHeaderOk_entry _ hok).2]

/-- C1 (amended): for catalogs built by the install flow's display step from
remote records and well-formed local lines (each non-indented line is a
bracketed header whose printed name equals its first whitespace token, and
each header except possibly the last is followed by an indented description
line), the displayed indices are exactly `N, N-1, ..., 1`, and resolving a
user selection `i` - computed by arithmetic inversion
`reversed = N - i + 1` over the concatenated record list, not via a stored
index-to-record table - yields for every `i` in `1..N` exactly the name of
the record displayed with index `i`.  On malformed local lines (see the
counterexample) the bijection fails. -/
theorem c1_catalog_bijection_amended (aur : List AurPkg) (L : List String)
    (hwf : wfLines L = true) :
    ((installDisplayed aur L).map Prod.fst =
      countdown (totalCount aur L) (totalCount aur L)) ∧
    (∀ i, 1 ≤ i → i ≤ totalCount aur L →
      ∃ e, (i, e) ∈ installDisplayed aur L ∧
        resolveSelection aur L i = some (entryName e)) :=
  displayedCatalog_resolve (sortInstall aur) L hwf

/-- Witness for C1 (amended) at one AUR record and one well-formed official
block. -/
theorem c1_catalog_bijection_amended_witness :
    wfLines ["core/vim 9.0-1 [installed]", "  an editor"] = true ∧
    (∃ e, (1, e) ∈ installDisplayed [⟨"vim-git", "9.0", none, none, some 5⟩]
        ["core/vim 9.0-1 [installed]", "  an editor"] ∧
      resolveSelection [⟨"vim-git", "9.0", none, none, some 5⟩]
        ["core/vim 9.0-1 [installed]", "  an editor"] 1 = some (entryName e)) :=
  ⟨by decide,
    (c1_catalog_bijection_amended [⟨"vim-git", "9.0", none, none, some 5⟩]
      ["core/vim 9.0-1 [installed]", "  an editor"] (by decide)).2 1
      (by decide) (by decide)⟩

/-- C1 counterexample: with two consecutive bracketed header lines (the
second is swallowed as a description candidate by the display loop's
`lines.next()`), the 2-entry catalog displays no record at index 1, yet
resolving selection 1 yields `"b/y"` - a record that was never displayed; so
the claimed bijection, and with it the claimed table-based resolution, fails
on the code. -/
theorem c1_counterexample :
    totalCount [] ["a/x 1.0 [r]", "b/y 2.0 [r]"] = 2 ∧
    installDisplayed [] ["a/x 1.0 [r]", "b/y 2.0 [r]"] =
      [(2, .officialE "a/x" "1.0")] ∧
    (installDisplayed [] ["a/x 1.0 [r]", "b/y 2.0 [r]"]).filter
      (fun q => q.1 == 1) = [] ∧
    resolveSelection [] ["a/x 1.0 [r]", "b/y 2.0 [r]"] 1 = some "b/y" := by
  refine ⟨?_, ?_, ?_, ?_⟩ <;> decide

/-! ## C2: end-to-end merge numbering -/

/-- C2 counterexample: for remote records `x` (popularity 5) and `y`
(popularity 1) and the local line `z 1.0 [core]`, the catalog built by
`search_packages` maps index 3 to `y`, not to `x` as the claim states - the
ascending-votes sort combined with the descending numbering gives the most
popular remote record the lowest remote index. -/
theorem c2_counterexample :
    (3, Entry.aurE ⟨"x", "2.0", none, none, some 5⟩) ∉
      searchDisplayed
        [⟨"x", "2.0", none, none, some 5⟩, ⟨"y", "1.0", none, none, some 1⟩]
        ["z 1.0 [core]"] ∧
    (3, Entry.aurE ⟨"y", "1.0", none, none, some 1⟩) ∈
      searchDisplayed
        [⟨"x", "2.0", none, none, some 5⟩, ⟨"y", "1.0", none, none, some 1⟩]
        ["z 1.0 [core]"] := by
  refine ⟨?_, ?_⟩ <;> decide

/-- C2 (amended): remote records `[x (popularity 5), y (popularity 1)]` and
local lines `["z 1.0 [core]"]` merge into a 3-entry catalog in which index 3
maps to `y` (remote records are listed in ascending popularity from the
highest index down, so the most popular remote record `x` receives the lowest
remote index), index 2 maps to `x`, and index 1 maps to `z`. -/
theorem c2_merge_numbering_amended :
    searchDisplayed
        [⟨"x", "2.0", none, none, some 5⟩, ⟨"y", "1.0", none, none, some 1⟩]
        ["z 1.0 [core]"] =
      [(3, .aurE ⟨"y", "1.0", none, none, some 1⟩),
        (2, .aurE ⟨"x", "2.0", none, none, some 5⟩),
        (1, .officialE "z" "1.0")] := by
  decide

end Aurorus
